import Mathlib

/-!
Verification of the MyPage Trac plugin (`tracext/wiki/mypage.py`).

The file shallowly embeds the plugin's core logic:
* Python string comparison (code-point lexicographic) as an executable
  Boolean order on `List Char`;
* `bisect.bisect` (that is, `bisect_right`) as the stdlib binary search loop;
* the adjacency computation of `MyPageNavMacro.expand_macro` (insertion-point
  snap, "missing" boundary checks, clamp, and list indexing modelled with
  `List.get?`, where `none` stands for Python's `IndexError`);
* `MyPageModule.get_all_mypages` (regex filter and `sorted`);
* the template-token substitution chain of `MyPageModule.process_request`
  (`str.replace` modelled on character lists);
* the `'> '` quoting of the previous page (`str.splitlines` and `'\n'.join`);
* the macro-argument parsing of `MyPageNavMacro.expand_macro` (`','` split
  and Python `int()` with sign and underscore handling, ASCII subset);
* `get_mypage_base`, the reference-page selection of the macro, and
  `MyPageModule.match_request`.

Machine strings are treated as their character lists; Python's `\d` regex
class is modelled as the ASCII digits, and `int()` / whitespace stripping is
modelled on the ASCII whitespace characters.
-/

/-- Python string `<` (strict lexicographic comparison by code points),
on character lists, as an executable Boolean. -/
def clLt : List Char → List Char → Bool
  | [], [] => false
  | [], _ :: _ => true
  | _ :: _, [] => false
  | a :: as, b :: bs =>
      if a.val < b.val then true
      else if b.val < a.val then false
      else clLt as bs

/-- Python string `<=` on character lists. -/
def clLe (a b : List Char) : Bool := ! clLt b a

/-- Python `<=` on strings, executable. -/
def pyStrLe (a b : String) : Bool := clLe a.data b.data

/-- The loop of `bisect_right` from Python's `bisect` module:
`while lo < hi: mid = (lo+hi)//2; if x < a[mid]: hi = mid else: lo = mid+1`.
List access is modelled with `List.get?`; the `none` arm is unreachable
whenever `hi ≤ a.length`. -/
def bisectAux (a : List String) (x : String) (lo hi : Nat) : Nat :=
  if lo < hi then
    let mid := (lo + hi) / 2
    match a.get? mid with
    | some v => if clLt x.data v.data then bisectAux a x lo mid
                else bisectAux a x (mid + 1) hi
    | none => lo
  else lo
termination_by hi - lo
decreasing_by
  · have hmid : mid < hi := by omega
    omega
  · have hmid : lo ≤ mid := by omega
    omega

/-- Python `bisect.bisect(a, x)`, that is `bisect_right` over the whole list. -/
def bisect (a : List String) (x : String) : Nat := bisectAux a x 0 a.length

/-- The insertion index of `mypage` in `all_mypages`, snapped to the actual
position when the page is present (mypage.py lines 289-293):
`idx = bisect(all_mypages, mypage)`;
`if 0 <= idx - 1 < len(all_mypages) and all_mypages[idx-1] == mypage: idx -= 1`. -/
def snapIdx (a : List String) (x : String) : Nat :=
  let i := bisect a x
  if 1 ≤ i ∧ i - 1 < a.length ∧ a.get? (i - 1) = some x then i - 1 else i

/-- Outcome of the page selection in `MyPageNavMacro.expand_macro`: either the
"missing" anchor (`tag.a(label, class_='missing')`) or a link to a page. -/
inductive NavResult
  | missing : NavResult
  | page : String → NavResult
deriving DecidableEq

/-- The adjacent-page selection of `MyPageNavMacro.expand_macro`
(mypage.py lines 289-313), for a page list `a`, reference name `x` and
offset.  Returns `none` exactly when the Python code would raise
`IndexError` on the final list indexing. -/
def findAdjacent (a : List String) (x : String) (offset : Int) : Option NavResult :=
  let i := snapIdx a x
  if ((i : Int) ≥ (a.length : Int) - 1 ∧ offset > 0) ∨
     ((i : Int) < 1 ∧ offset < 0) then
    some NavResult.missing
  else
    let t : Int := (i : Int) + offset
    let j : Int := max 0 (min t ((a.length : Int) - 1))
    match a.get? j.toNat with
    | some p => some (NavResult.page p)
    | none => none

/-- The line-boundary characters of Python's `str.splitlines`. -/
def isLineBreak (c : Char) : Bool :=
  ['\n', '\r', '\x0b', '\x0c', '\x1c', '\x1d', '\x1e', '\x85', '\u2028', '\u2029'].contains c

/-- Python `str.splitlines()`: split at line boundaries (with `"\r\n"` as a
single boundary), boundaries not kept, no trailing empty line. -/
def pySplitlines : List Char → List (List Char)
  | [] => []
  | c :: r =>
    if c = '\r' ∧ r.head? = some '\n' then [] :: pySplitlines r.tail
    else if isLineBreak c then [] :: pySplitlines r
    else
      match pySplitlines r with
      | [] => [[c]]
      | l :: ls => (c :: l) :: ls
termination_by cs => cs.length
decreasing_by
  · simp [List.length_tail]
    omega
  · simp
  · simp

/-- Python `'\n'.join` on character-list lines. -/
def joinLines : List (List Char) → List Char
  | [] => []
  | [l] => l
  | l :: ls => l ++ '\n' :: joinLines ls

/-- The `$MYPAGE_LAST_PAGE_QUOTED` value (mypage.py lines 196-197):
`'\n'.join(['> ' + line for line in last_page_text.splitlines()])`. -/
def quoteText (text : String) : String :=
  ⟨joinLines ((pySplitlines text.data).map (fun l => '>' :: ' ' :: l))⟩

/-- Python `str.replace(pat, rep)` for a nonempty pattern: scan left to
right, replacing each (non-overlapping) occurrence. -/
def replaceAll (pat rep : List Char) : List Char → List Char
  | [] => []
  | c :: rest =>
    if pat ≠ [] ∧ pat.isPrefixOf (c :: rest) then
      rep ++ replaceAll pat rep (rest.drop (pat.length - 1))
    else
      c :: replaceAll pat rep rest
termination_by s => s.length
decreasing_by
  · simp
    omega
  · simp

/-- Python `str.replace` on strings. -/
def pyReplace (s pat rep : String) : String := ⟨replaceAll pat.data rep.data s.data⟩

def tokDate : String := "$MYPAGE_DATE"

def tokIsodate : String := "$MYPAGE_ISODATE"

def tokUser : String := "$MYPAGE_USER"

def tokAuthor : String := "$MYPAGE_AUTHOR"

def tokLpLink : String := "$MYPAGE_LAST_PAGE_LINK"

def tokLpName : String := "$MYPAGE_LAST_PAGE_NAME"

def tokLpText : String := "$MYPAGE_LAST_PAGE_TEXT"

def tokLpQuoted : String := "$MYPAGE_LAST_PAGE_QUOTED"

/-- The eight token placeholders, in the order `process_request` replaces
them (mypage.py lines 202-210). -/
def allTokens : List String :=
  [tokDate, tokIsodate, tokUser, tokAuthor, tokLpLink, tokLpName, tokLpText, tokLpQuoted]

/-- The computed values substituted by `process_request`.  `lp_name`,
`lp_text` and `lp_quoted` are `Option`s: `none` models Python `None`
(no previous page, or its text unreadable). -/
structure TokenValues where
  date : String
  isodate : String
  user : String
  author : String
  lp_link : String
  lp_name : Option String
  lp_text : Option String
  lp_quoted : Option String

/-- The substitution chain of `process_request` (mypage.py lines 202-210):
eight successive `str.replace` calls, with `x or ''` (modelled by
`Option.getD ""`) for the optional values. -/
def expandTemplate (t : String) (v : TokenValues) : String :=
  pyReplace (pyReplace (pyReplace (pyReplace (pyReplace (pyReplace (pyReplace
    (pyReplace t tokDate v.date)
    tokIsodate v.isodate)
    tokUser v.user)
    tokAuthor v.author)
    tokLpLink v.lp_link)
    tokLpName (v.lp_name.getD ""))
    tokLpText (v.lp_text.getD ""))
    tokLpQuoted (v.lp_quoted.getD "")

/-- The token/value pairs in replacement order. -/
def tokenPairs (v : TokenValues) : List (String × String) :=
  [(tokDate, v.date), (tokIsodate, v.isodate), (tokUser, v.user),
   (tokAuthor, v.author), (tokLpLink, v.lp_link),
   (tokLpName, v.lp_name.getD ""), (tokLpText, v.lp_text.getD ""),
   (tokLpQuoted, v.lp_quoted.getD "")]

/-- The pattern `\d{4}-\d{2}-\d{2}` on exactly ten characters (`\d` modelled as the
ASCII digits, as in the page names the plugin works with). -/
def dateShape : List Char → Bool
  | [y1, y2, y3, y4, s1, m1, m2, s2, d1, d2] =>
      y1.isDigit && y2.isDigit && y3.isDigit && y4.isDigit && s1 == '-' &&
      m1.isDigit && m2.isDigit && s2 == '-' && d1.isDigit && d2.isDigit
  | _ => false

/-- Whether `re.compile(".*/\d{4}-\d{2}-\d{2}").match(s)` succeeds: the string
starts with any run of non-newline characters, then `'/'`, then a
`\d{4}-\d{2}-\d{2}` block — possibly followed by anything (the pattern is
not anchored at the end). -/
def mypageRegexAccepts : List Char → Bool
  | [] => false
  | c :: rest =>
      (c == '/' && dateShape (rest.take 10)) ||
      (c != '\n' && mypageRegexAccepts rest)

/-- The filter of `MyPageModule.get_all_mypages` (mypage.py lines 111-119) applied to the
page names returned by the wiki system for the base: keep the names matched
by the regex, and sort them (Python `sorted`, ascending). -/
def get_all_mypages (pages : List String) : List String :=
  (pages.filter (fun p => mypageRegexAccepts p.data)).mergeSort pyStrLe

/-- The last `n` characters of a list. -/
def lastN (n : Nat) (l : List Char) : List Char := l.drop (l.length - n)

/-- The spec's filter, as worded: the page-name *suffix* matches
`\d{4}-\d{2}-\d{2}` (its last ten characters form a date block). -/
def specSuffixDate (s : String) : Bool := dateShape (lastN 10 s.data)

/-- Numeric value of an ASCII digit character. -/
def dval (c : Char) : Nat := c.toNat - 48

/-- Numeric value of a fixed-width ASCII digit block. -/
def digitsVal : List Char → Nat
  | [] => 0
  | c :: cs => dval c * 10 ^ cs.length + digitsVal cs

/-- Chronological key of a ten-character `yyyy-mm-dd` block:
`yyyy * 10000 + mm * 100 + dd`. -/
def dateVal : List Char → Nat
  | [y1, y2, y3, y4, _, m1, m2, _, d1, d2] =>
      digitsVal [y1, y2, y3, y4] * 10000 + digitsVal [m1, m2] * 100 + digitsVal [d1, d2]
  | _ => 0

/-- Python `content.split(sep, 1)`: the part before the first separator,
and (when a separator occurs) the remainder after it. -/
def splitFirst (sep : Char) : List Char → List Char × Option (List Char)
  | [] => ([], none)
  | c :: rest =>
      if c == sep then ([], some rest)
      else
        let p := splitFirst sep rest
        (c :: p.1, p.2)

/-- ASCII whitespace stripped by Python's `int()`. -/
def isPySpace (c : Char) : Bool := [' ', '\t', '\n', '\r', '\x0b', '\x0c'].contains c

/-- Digit run of a Python integer literal after its first digit: single
underscores are allowed between digits only. -/
def pdAux : List Char → Nat → Option Nat
  | [], acc => some acc
  | '_' :: c :: rest, acc => if c.isDigit then pdAux rest (acc * 10 + dval c) else none
  | ['_'], _ => none
  | c :: rest, acc => if c.isDigit then pdAux rest (acc * 10 + dval c) else none

/-- Digit run of a Python integer literal: at least one digit, single
underscores between digits. -/
def parseDigits : List Char → Option Nat
  | [] => none
  | c :: rest => if c.isDigit then pdAux rest (dval c) else none

/-- Python `int(s)` (ASCII subset): strip surrounding whitespace, optional
sign, digit run; `none` models `ValueError`. -/
def parseIntPy (s : String) : Option Int :=
  let cs := s.data.dropWhile isPySpace
  let cs2 := (cs.reverse.dropWhile isPySpace).reverse
  match cs2 with
  | '+' :: rest => (parseDigits rest).map (fun n => (n : Int))
  | '-' :: rest => (parseDigits rest).map (fun n => -(n : Int))
  | rest => (parseDigits rest).map (fun n => (n : Int))

/-- The argument parsing of `MyPageNavMacro.expand_macro` (mypage.py lines
263-276): offset defaults to `+1`; an argument with a comma is split at the
first comma into offset text and label; otherwise a leading `+`/`-` makes
the whole argument the offset text; `int()` failure makes the offset `0`. -/
def parseNavArg : Option String → Int × Option String
  | none => (1, none)
  | some c =>
      match splitFirst ',' c.data with
      | (pre, some post) => ((parseIntPy ⟨pre⟩).getD 0, some (⟨post⟩ : String))
      | (_, none) =>
          match c.data with
          | [] => (1, some c)
          | ch :: _ =>
              if ch == '+' || ch == '-' then ((parseIntPy c).getD 0, none)
              else (1, some c)

/-- The base name `MyPageModule.get_mypage_base` (mypage.py lines 106-109):
`''.join(c + '/' for c in [self.prefix, authname] if c)`. -/
def get_mypage_base (pfx authname : String) : String :=
  String.join (([pfx, authname].filter (fun c => c != "")).map (fun c => c ++ "/"))

/-- Python `sep.join(parts)`. -/
def pyJoin (sep : String) : List String → String
  | [] => ""
  | [x] => x
  | x :: xs => x ++ sep ++ pyJoin sep xs

/-- The reference-page choice of `MyPageNavMacro.expand_macro` (mypage.py
lines 281-287): the page hosting the macro when it is a wiki page whose name
starts with the base, else `'/'.join([base, today])`.  Python
`str.startswith` is modelled as a prefix test on the character lists. -/
def navReference (base today realm rid : String) : String :=
  if realm == "wiki" && base.data.isPrefixOf rid.data then rid
  else pyJoin "/" [base, today]

/-- Python `s.rstrip('/')`. -/
def rstripSlash (s : String) : String :=
  ⟨(s.data.reverse.dropWhile (fun c => c == '/')).reverse⟩

/-- Outcome of `MyPageModule.match_request`: raise `PermissionError`,
claim the request (`return True`), or decline it (fall through, `None`). -/
inductive MatchResult
  | permissionError : MatchResult
  | handled : MatchResult
  | notMatched : MatchResult
deriving DecidableEq

/-- The handler test `MyPageModule.match_request` (mypage.py lines 141-149): requests whose
path, with trailing slashes stripped, is `/mypage` are claimed, but an
empty `authname` raises `PermissionError` first. -/
def match_request (path_info authname : String) : MatchResult :=
  if rstripSlash path_info == "/mypage" then
    if authname == "" then MatchResult.permissionError else MatchResult.handled
  else MatchResult.notMatched

/-- Whether a string is free of the `'$'` character (so of token starts). -/
def noDollar (s : String) : Bool := s.data.all (fun c => c != '$')

/-- Executable substring test: does `pat` occur contiguously in `s`? -/
def occursIn (pat : List Char) : List Char → Bool
  | [] => pat.isEmpty
  | c :: rest => pat.isPrefixOf (c :: rest) || occursIn pat rest

/-- A template assembled from placeholder occurrences: each item is a
token/value pair together with the literal text following the occurrence;
`g` selects what each occurrence currently holds (`Prod.fst` for the
placeholder itself, `Prod.snd` for its computed value). -/
def renderChars (g : String × String → String) :
    List ((String × String) × String) → List Char
  | [] => []
  | it :: rest => (g it.1).data ++ (it.2.data ++ renderChars g rest)

/-- The effect of a sequence of replace passes on the content of one
occurrence: each pass rewrites the content to its value when the content is
exactly that pass's placeholder. -/
def substChain (ps : List (String × String)) (c : String) : String :=
  ps.foldl (fun acc pr => if acc = pr.1 then pr.2 else acc) c

/-- A sequence of `str.replace` passes, as `process_request` chains them. -/
def applyPasses (ps : List (String × String)) (s : String) : String :=
  ps.foldl (fun acc pr => pyReplace acc pr.1 pr.2) s

theorem charVal_lt_iff (a b : Char) : a.val < b.val ↔ a.toNat < b.toNat := Iff.rfl

theorem char_eq_of_not_val_lt (a b : Char) (h1 : ¬ a.val < b.val) (h2 : ¬ b.val < a.val) :
    a = b := by
  apply Char.ext
  apply UInt32.ext
  have h1n : ¬ a.val.toNat < b.val.toNat := h1
  have h2n : ¬ b.val.toNat < a.val.toNat := h2
  omega

theorem clLt_iff (a b : List Char) : clLt a b = true ↔ a < b := by
  induction a generalizing b with
  | nil =>
      cases b with
      | nil =>
          simp only [clLt]
          exact iff_of_false (by simp) (fun h => by cases h)
      | cons c cs => simpa [clLt] using List.Lex.nil
  | cons a as ih =>
      cases b with
      | nil =>
          simp only [clLt]
          exact iff_of_false (by simp) (fun h => by cases h)
      | cons b bs =>
          simp only [clLt]
          by_cases h1 : a.val < b.val
          · rw [if_pos h1]
            exact iff_of_true rfl (List.Lex.rel (Char.lt_iff_val_lt_val.mpr h1))
          · rw [if_neg h1]
            by_cases h2 : b.val < a.val
            · rw [if_pos h2]
              refine iff_of_false (by simp) (fun h => ?_)
              cases h with
              | rel hab => exact h1 (Char.lt_iff_val_lt_val.mp hab)
              | cons _ => exact Nat.lt_irrefl _ h2
            · rw [if_neg h2]
              have hab : a = b := char_eq_of_not_val_lt a b h1 h2
              subst hab
              rw [ih bs]
              constructor
              · intro h
                exact List.Lex.cons h
              · intro h
                cases h with
                | rel hcc => exact absurd (Char.lt_iff_val_lt_val.mp hcc) h1
                | cons htail => exact htail

theorem clLt_iff_lt_string (a b : String) : clLt a.data b.data = true ↔ a < b := by
  rw [clLt_iff]
  exact Iff.symm String.lt_iff_toList_lt

theorem pyStrLe_iff (a b : String) : pyStrLe a b = true ↔ a ≤ b := by
  unfold pyStrLe clLe
  rw [Bool.not_eq_true']
  rw [← Bool.not_eq_true (clLt b.data a.data)]
  rw [clLt_iff_lt_string b a]
  exact not_lt

theorem clLe_iff (a b : List Char) : clLe a b = true ↔ a ≤ b := by
  unfold clLe
  rw [Bool.not_eq_true']
  rw [← Bool.not_eq_true (clLt b a)]
  rw [clLt_iff b a]
  exact not_lt

theorem sorted_get?_le (a : List String) (hs : List.Sorted (· ≤ ·) a)
    (i j : Nat) (hij : i ≤ j) (vi vj : String)
    (hvi : a.get? i = some vi) (hvj : a.get? j = some vj) : vi ≤ vj := by
  obtain ⟨hi, hgi⟩ := List.get?_eq_some.mp hvi
  obtain ⟨hj, hgj⟩ := List.get?_eq_some.mp hvj
  rcases Nat.lt_or_ge i j with hlt | hge
  · have := List.pairwise_iff_get.mp hs ⟨i, hi⟩ ⟨j, hj⟩ hlt
    rw [hgi, hgj] at this
    exact this
  · have hij2 : i = j := Nat.le_antisymm hij hge
    subst hij2
    rw [← hgi, ← hgj]

theorem bisectAux_bounds (a : List String) (x : String) :
    ∀ lo hi : Nat, lo ≤ bisectAux a x lo hi ∧ bisectAux a x lo hi ≤ max lo hi := by
  intro lo hi
  induction lo, hi using bisectAux.induct a x with
  | case1 lo hi h mid v hv hlt ih =>
      rw [bisectAux, if_pos h]
      dsimp only
      rw [show a.get? ((lo + hi) / 2) = some v from hv]
      dsimp only
      rw [if_pos hlt]
      have hmid : mid = (lo + hi) / 2 := rfl
      refine ⟨ih.1, le_trans ih.2 ?_⟩
      omega
  | case2 lo hi h mid v hv hlt ih =>
      rw [bisectAux, if_pos h]
      dsimp only
      rw [show a.get? ((lo + hi) / 2) = some v from hv]
      dsimp only
      rw [if_neg hlt]
      have hmid : mid = (lo + hi) / 2 := rfl
      rw [hmid] at ih
      constructor
      · omega
      · refine le_trans ih.2 ?_
        omega
  | case3 lo hi h mid hv =>
      rw [bisectAux, if_pos h]
      dsimp only
      rw [show a.get? ((lo + hi) / 2) = none from hv]
      dsimp only
      omega
  | case4 lo hi h =>
      rw [bisectAux, if_neg h]
      omega

theorem bisect_le_length (a : List String) (x : String) : bisect a x ≤ a.length := by
  have h := (bisectAux_bounds a x 0 a.length).2
  simpa using h

theorem bisectAux_sorted_spec (a : List String) (x : String)
    (hs : List.Sorted (· ≤ ·) a) :
    ∀ lo hi : Nat, hi ≤ a.length →
      (∀ k v, lo ≤ k → k < bisectAux a x lo hi → a.get? k = some v → v ≤ x) ∧
      (∀ k v, bisectAux a x lo hi ≤ k → k < hi → a.get? k = some v → x < v) := by
  intro lo hi
  induction lo, hi using bisectAux.induct a x with
  | case1 lo hi h mid v hv hlt ih =>
      intro hhi
      have hmid : mid = (lo + hi) / 2 := rfl
      rw [bisectAux, if_pos h]
      dsimp only
      rw [show a.get? ((lo + hi) / 2) = some v from hv]
      dsimp only
      rw [if_pos hlt]
      have hmle : mid ≤ a.length := by omega
      obtain ⟨ih1, ih2⟩ := ih hmle
      refine ⟨ih1, ?_⟩
      intro k w hk1 hk2 hw
      rcases Nat.lt_or_ge k mid with hkm | hkm
      · exact ih2 k w hk1 hkm hw
      · have hxv : x < v := (clLt_iff_lt_string x v).mp hlt
        have hvw : v ≤ w := sorted_get?_le a hs mid k hkm v w hv hw
        exact lt_of_lt_of_le hxv hvw
  | case2 lo hi h mid v hv hlt ih =>
      intro hhi
      have hmid : mid = (lo + hi) / 2 := rfl
      rw [bisectAux, if_pos h]
      dsimp only
      rw [show a.get? ((lo + hi) / 2) = some v from hv]
      dsimp only
      rw [if_neg hlt]
      obtain ⟨ih1, ih2⟩ := ih hhi
      have hvx : v ≤ x := by
        rcases le_or_lt v x with hvx | hxv
        · exact hvx
        · exact absurd ((clLt_iff_lt_string x v).mpr hxv) hlt
      constructor
      · intro k w hk1 hk2 hw
        rcases Nat.lt_or_ge k (mid + 1) with hkm | hkm
        · have hwv : w ≤ v := sorted_get?_le a hs k mid (by omega) w v hw hv
          exact le_trans hwv hvx
        · exact ih1 k w hkm hk2 hw
      · intro k w hk1 hk2 hw
        exact ih2 k w hk1 hk2 hw
  | case3 lo hi h mid hv =>
      intro hhi
      exfalso
      have hmid : mid = (lo + hi) / 2 := rfl
      have := List.get?_eq_none.mp hv
      omega
  | case4 lo hi h =>
      intro hhi
      rw [bisectAux, if_neg h]
      constructor
      · intro k w hk1 hk2 hw
        exfalso
        omega
      · intro k w hk1 hk2 hw
        exfalso
        omega

theorem bisect_mem (a : List String) (x : String) (hs : List.Sorted (· ≤ ·) a)
    (hmem : x ∈ a) : 1 ≤ bisect a x ∧ a.get? (bisect a x - 1) = some x := by
  obtain ⟨⟨k, hk⟩, hgk⟩ := List.mem_iff_get.mp hmem
  have hget : a.get? k = some x := by rw [List.get?_eq_get hk, hgk]
  obtain ⟨hle, hgt⟩ := bisectAux_sorted_spec a x hs 0 a.length (le_refl _)
  have hkb : k < bisect a x := by
    by_contra hkb
    push_neg at hkb
    exact lt_irrefl x (hgt k x hkb hk hget)
  have h1 : 1 ≤ bisect a x := by omega
  refine ⟨h1, ?_⟩
  have hblen : bisect a x ≤ a.length := bisect_le_length a x
  have hbb : bisect a x = bisectAux a x 0 a.length := rfl
  have hb1 : bisect a x - 1 < a.length := by omega
  have hw : a.get? (bisect a x - 1) = some (a.get ⟨bisect a x - 1, hb1⟩) :=
    List.get?_eq_get hb1
  have hwx : a.get ⟨bisect a x - 1, hb1⟩ ≤ x :=
    hle (bisect a x - 1) _ (Nat.zero_le _) (by omega) hw
  have hk2 : k ≤ bisect a x - 1 := Nat.le_pred_of_lt hkb
  have hxw : x ≤ a.get ⟨bisect a x - 1, hb1⟩ :=
    sorted_get?_le a hs k (bisect a x - 1) hk2 x _ hget hw
  rw [hw, le_antisymm hwx hxw]

theorem snapIdx_of_mem (a : List String) (x : String) (hs : List.Sorted (· ≤ ·) a)
    (hmem : x ∈ a) : snapIdx a x = bisect a x - 1 ∧ a.get? (snapIdx a x) = some x := by
  obtain ⟨h1, h2⟩ := bisect_mem a x hs hmem
  obtain ⟨hlen, _⟩ := List.get?_eq_some.mp h2
  unfold snapIdx
  rw [if_pos ⟨h1, hlen, h2⟩]
  exact ⟨rfl, h2⟩

theorem snapIdx_of_not_mem (a : List String) (x : String) (hmem : x ∉ a) :
    snapIdx a x = bisect a x := by
  unfold snapIdx
  rw [if_neg (fun hc => hmem (List.get?_mem hc.2.2))]

/-- C1: for every sorted list of journal page names and every reference name,
the adjacency computation of `MyPageNavMacro.expand_macro` returns the
"missing" sentinel exactly when the offset points outward beyond the bounds
(offset > 0 with the snapped insertion position already at/after the last
page's position, or offset < 0 with it at/before the first), and every
offset whose target position lies within bounds yields exactly the page at
the snapped insertion index plus the offset; in particular, for pages
`["j/2024-01-01", "j/2024-01-03"]` and reference `"j/2024-01-03"`, offset
`-1` yields `"j/2024-01-01"` and offset `+1` yields "missing". -/
theorem c1_adjacency_boundary_exact (pages : List String) (ref : String)
    (offset : Int) (hs : List.Sorted (· ≤ ·) pages) :
    (findAdjacent pages ref offset = some NavResult.missing ↔
      (offset > 0 ∧ (snapIdx pages ref : Int) ≥ (pages.length : Int) - 1) ∨
      (offset < 0 ∧ (snapIdx pages ref : Int) < 1)) ∧
    (∀ t : Nat, ∀ ht : t < pages.length, (t : Int) = (snapIdx pages ref : Int) + offset →
      findAdjacent pages ref offset = some (NavResult.page (pages.get ⟨t, ht⟩))) ∧
    findAdjacent ["j/2024-01-01", "j/2024-01-03"] "j/2024-01-03" (-1)
      = some (NavResult.page "j/2024-01-01") ∧
    findAdjacent ["j/2024-01-01", "j/2024-01-03"] "j/2024-01-03" 1
      = some NavResult.missing := by
  refine ⟨?_, ?_, by simp [findAdjacent, snapIdx, bisect, bisectAux, clLt],
    by simp [findAdjacent, snapIdx, bisect, bisectAux, clLt]⟩
  · unfold findAdjacent
    by_cases hc : ((snapIdx pages ref : Int) ≥ (pages.length : Int) - 1 ∧ offset > 0) ∨
        ((snapIdx pages ref : Int) < 1 ∧ offset < 0)
    · rw [if_pos hc]
      exact iff_of_true rfl (by tauto)
    · rw [if_neg hc]
      dsimp only
      constructor
      · intro hres
        split at hres
        · exact absurd hres (by simp)
        · exact absurd hres (by simp)
      · intro hrhs
        exact absurd (by tauto) hc
  · intro t ht hteq
    unfold findAdjacent
    have hcf : ¬ (((snapIdx pages ref : Int) ≥ (pages.length : Int) - 1 ∧ offset > 0) ∨
        ((snapIdx pages ref : Int) < 1 ∧ offset < 0)) := by
      rintro (⟨hge, hpos⟩ | ⟨hlt1, hneg⟩)
      · omega
      · omega
    rw [if_neg hcf]
    dsimp only
    have hj : (max 0 (min ((snapIdx pages ref : Int) + offset)
        ((pages.length : Int) - 1))).toNat = t := by omega
    rw [hj, List.get?_eq_get ht]

/-- Witness for C1 at the spec's concrete sorted list. -/
theorem c1_adjacency_boundary_exact_witness :
    findAdjacent ["j/2024-01-01", "j/2024-01-03"] "j/2024-01-03" (-1)
      = some (NavResult.page "j/2024-01-01") :=
  (c1_adjacency_boundary_exact ["j/2024-01-01", "j/2024-01-03"] "j/2024-01-03" (-1)
    (by simp [List.sorted_cons]
        exact (clLe_iff "j/2024-01-01".data "j/2024-01-03".data).mp (by decide))).2.2.1

/-- C2 (amended to nonempty lists): for every sorted nonempty page list and
reference name, the adjacency computation with offset 0 returns the
reference itself when it is a member, and otherwise the page at the binary
search insertion position, clamped to the last element when that position is
past the end.  (On the empty list the code instead reaches an out-of-range
indexing, see the counterexample.) -/
theorem c2_offset_zero (pages : List String) (ref : String)
    (hs : List.Sorted (· ≤ ·) pages) (hne : pages ≠ []) :
    (ref ∈ pages → findAdjacent pages ref 0 = some (NavResult.page ref)) ∧
    (ref ∉ pages → findAdjacent pages ref 0 = some (NavResult.page
      (pages.get ⟨min (bisect pages ref) (pages.length - 1), by
        have hpos : 0 < pages.length := List.length_pos.mpr hne
        omega⟩))) := by
  have hpos : 0 < pages.length := List.length_pos.mpr hne
  constructor
  · intro hmem
    obtain ⟨hsnap, hget⟩ := snapIdx_of_mem pages ref hs hmem
    obtain ⟨hslen, _⟩ := List.get?_eq_some.mp hget
    unfold findAdjacent
    rw [if_neg (by rintro (⟨_, h0⟩ | ⟨_, h0⟩) <;> omega)]
    dsimp only
    have hj : (max 0 (min ((snapIdx pages ref : Int) + 0)
        ((pages.length : Int) - 1))).toNat = snapIdx pages ref := by omega
    rw [hj, hget]
  · intro hmem
    have hsnap : snapIdx pages ref = bisect pages ref := snapIdx_of_not_mem pages ref hmem
    have hble : bisect pages ref ≤ pages.length := bisect_le_length pages ref
    unfold findAdjacent
    rw [if_neg (by rintro (⟨_, h0⟩ | ⟨_, h0⟩) <;> omega)]
    dsimp only
    have hcl : min (bisect pages ref) (pages.length - 1) < pages.length := by omega
    have hj : (max 0 (min ((snapIdx pages ref : Int) + 0)
        ((pages.length : Int) - 1))).toNat = min (bisect pages ref) (pages.length - 1) := by
      rw [hsnap]
      omega
    rw [hj, List.get?_eq_get hcl]

/-- Counterexample for C2 as stated: on the empty (sorted) list with offset
0 the code returns no page at all — it reaches the list indexing with index
0 on an empty list (`IndexError`), modelled by `none`. -/
theorem c2_offset_zero_counterexample :
    findAdjacent [] "a" 0 = none ∧
    ∀ s : String, findAdjacent [] "a" 0 ≠ some (NavResult.page s) := by
  have h : findAdjacent [] "a" 0 = none := by
    simp [findAdjacent, snapIdx, bisect, bisectAux]
  refine ⟨h, fun s hc => ?_⟩
  rw [h] at hc
  exact Option.noConfusion hc

/-- Witness for C2 (member case) at a concrete sorted nonempty list. -/
theorem c2_offset_zero_witness :
    findAdjacent ["a", "c"] "a" 0 = some (NavResult.page "a") :=
  (c2_offset_zero ["a", "c"] "a"
    (by simp [List.sorted_cons]
        exact (clLe_iff "a".data "c".data).mp (by decide))
    (by simp)).1 (by simp)

/-- C10: the claim that the page selection never indexes outside the list
fails on the code: for the empty page list with offset 0 the "missing"
check falls through and the code indexes the empty list at 0 (an
`IndexError`, modelled by `none`); for every nonempty list the selection is
indeed safe for all references and offsets. -/
theorem c10_empty_indexing_and_safety :
    findAdjacent [] "j/2024-01-01" 0 = none ∧
    ∀ (pages : List String) (ref : String) (offset : Int),
      pages ≠ [] → (findAdjacent pages ref offset).isSome = true := by
  constructor
  · simp [findAdjacent, snapIdx, bisect, bisectAux]
  · intro pages ref offset hne
    have hpos : 0 < pages.length := List.length_pos.mpr hne
    unfold findAdjacent
    by_cases hc : (((snapIdx pages ref : Int) ≥ (pages.length : Int) - 1 ∧ offset > 0) ∨
        ((snapIdx pages ref : Int) < 1 ∧ offset < 0))
    · rw [if_pos hc]
      rfl
    · rw [if_neg hc]
      dsimp only
      have hj : (max 0 (min ((snapIdx pages ref : Int) + offset)
          ((pages.length : Int) - 1))).toNat < pages.length := by omega
      rw [List.get?_eq_get hj]
      rfl

/-- Witness for the safety half of C10's theorem. -/
theorem c10_empty_indexing_and_safety_witness :
    (findAdjacent ["a"] "b" 5).isSome = true :=
  c10_empty_indexing_and_safety.2 ["a"] "b" 5 (by simp)

/-- C9: `MyPageModule.match_request` signals `PermissionError` precisely on
requests whose path (with trailing slashes stripped) is the journal landing
route `/mypage` and whose authname is empty; in particular every request to
the landing route by an unauthenticated user raises instead of being
processed. -/
theorem c9_unauthenticated_permission_error (path authname : String) :
    match_request path authname = MatchResult.permissionError ↔
      (rstripSlash path = "/mypage" ∧ authname = "") := by
  unfold match_request
  by_cases hp : rstripSlash path == "/mypage"
  · rw [if_pos hp]
    by_cases ha : authname == ""
    · rw [if_pos ha]
      exact iff_of_true rfl ⟨by rwa [beq_iff_eq] at hp, by rwa [beq_iff_eq] at ha⟩
    · rw [if_neg ha]
      refine iff_of_false (by simp) (fun hcl => ?_)
      exact absurd (beq_iff_eq.mpr hcl.2) ha
  · rw [if_neg hp]
    refine iff_of_false (by simp) (fun hcl => ?_)
    exact absurd (beq_iff_eq.mpr hcl.1) hp

/-- C8 evaluation at the failing input: the reference-page fallback of the
navigation macro.  With an empty prefix and user `alice` the base is
`alice/`; on a non-wiki hosting resource the code computes the reference
`'/'.join([base, today])` = `alice//2024-01-01` (double slash), which is not
the page of the day `base + today` = `alice/2024-01-01` built by
`process_request`; moreover a wiki page under the base that is not
date-named (here `alice/notes`) is itself taken as the reference rather
than today's page. -/
theorem c8_reference_page_divergence :
    get_mypage_base "" "alice" = "alice/" ∧
    navReference (get_mypage_base "" "alice") "2024-01-01" "ticket" "SomeTicket"
      = "alice//2024-01-01" ∧
    get_mypage_base "" "alice" ++ "2024-01-01" = "alice/2024-01-01" ∧
    ("alice//2024-01-01" : String) ≠ "alice/2024-01-01" ∧
    navReference (get_mypage_base "" "alice") "2024-01-01" "wiki" "alice/notes"
      = "alice/notes" := by
  refine ⟨by decide, by decide, by decide, by decide, by decide⟩

theorem splitFirst_append (sep : Char) (pre post : List Char) (h : sep ∉ pre) :
    splitFirst sep (pre ++ sep :: post) = (pre, some post) := by
  induction pre with
  | nil => simp [splitFirst]
  | cons c cs ih =>
      simp only [List.mem_cons, not_or] at h
      obtain ⟨h1, h2⟩ := h
      rw [List.cons_append, splitFirst]
      rw [if_neg (by simp only [beq_iff_eq]; exact fun hh => h1 hh.symm)]
      dsimp only
      rw [ih h2]

/-- C7: the navigation macro parses its optional argument as
`[+-offset,]label`: no argument gives offset +1; an argument containing a
comma is split at the first comma into the offset candidate and the label;
a failing integer parse of the offset candidate makes the offset 0. -/
theorem c7_argument_parsing :
    parseNavArg none = (1, none) ∧
    (∀ pre post : String, (',' : Char) ∉ pre.data →
      parseNavArg (some (pre ++ "," ++ post)) = ((parseIntPy pre).getD 0, some post)) ∧
    (∀ pre post : String, (',' : Char) ∉ pre.data → parseIntPy pre = none →
      (parseNavArg (some (pre ++ "," ++ post))).1 = 0) := by
  have key : ∀ pre post : String, (',' : Char) ∉ pre.data →
      parseNavArg (some (pre ++ "," ++ post)) = ((parseIntPy pre).getD 0, some post) := by
    intro pre post h
    unfold parseNavArg
    dsimp only
    have hdata : (pre ++ "," ++ post).data = pre.data ++ ',' :: post.data := by
      rw [String.data_append, String.data_append, List.append_assoc]
      rfl
    rw [hdata, splitFirst_append ',' pre.data post.data h]
  refine ⟨rfl, key, fun pre post h hfail => ?_⟩
  rw [key pre post h, hfail]
  rfl

/-- Witness for C7: a parsable offset before the comma, and the instantiated
fallback facts. -/
theorem c7_argument_parsing_witness :
    parseNavArg (some ("+2" ++ "," ++ "next")) = ((parseIntPy "+2").getD 0, some "next") ∧
    (parseIntPy "+2").getD 0 = 2 ∧
    (parseNavArg (some ("+x" ++ "," ++ "lbl"))).1 = 0 :=
  ⟨c7_argument_parsing.2.1 "+2" "next" (by decide), by decide,
    c7_argument_parsing.2.2 "+x" "lbl" (by decide) (by decide)⟩

theorem pySplitlines_no_break (cs : List Char) :
    ∀ l ∈ pySplitlines cs, ∀ c ∈ l, isLineBreak c = false := by
  induction cs using pySplitlines.induct with
  | case1 => simp [pySplitlines]
  | case2 c r h ih =>
      rw [pySplitlines, if_pos h]
      intro l hl
      rcases List.mem_cons.mp hl with hl | hl
      · subst hl; simp
      · exact ih l hl
  | case3 c r h1 h2 ih =>
      rw [pySplitlines, if_neg h1, if_pos h2]
      intro l hl
      rcases List.mem_cons.mp hl with hl | hl
      · subst hl; simp
      · exact ih l hl
  | case4 c r h1 h2 hrec ih =>
      rw [pySplitlines, if_neg h1, if_neg h2, hrec]
      intro l hl
      simp only [List.mem_singleton] at hl
      subst hl
      intro d hd
      simp only [List.mem_singleton] at hd
      subst hd
      simpa using h2
  | case5 c r h1 h2 l0 ls hrec ih =>
      rw [pySplitlines, if_neg h1, if_neg h2, hrec]
      intro l hl
      dsimp only at hl
      rcases List.mem_cons.mp hl with hl | hl
      · subst hl
        intro d hd
        rcases List.mem_cons.mp hd with hd | hd
        · subst hd; simpa using h2
        · exact ih l0 (hrec ▸ List.mem_cons_self l0 ls) d hd
      · exact ih l (hrec ▸ List.mem_cons_of_mem l0 hl)

theorem pySplitlines_single : ∀ q : List Char,
    (∀ c ∈ q, isLineBreak c = false) → q ≠ [] → pySplitlines q = [q] := by
  intro q
  induction q with
  | nil => exact fun _ hne => absurd rfl hne
  | cons c r ih =>
      intro hq hne
      have hc : isLineBreak c = false := hq c (List.mem_cons_self c r)
      have hcr : ¬ (c = '\r' ∧ r.head? = some '\n') := by
        rintro ⟨hcc, -⟩
        rw [hcc] at hc
        simp [isLineBreak] at hc
      rw [pySplitlines, if_neg hcr, if_neg (by simp [hc])]
      by_cases hrn : r = []
      · subst hrn
        rw [show pySplitlines ([] : List Char) = [] from by rw [pySplitlines]]
      · rw [ih (fun d hd => hq d (List.mem_cons_of_mem c hd)) hrn]

theorem pySplitlines_append : ∀ q : List Char, (∀ c ∈ q, isLineBreak c = false) →
    ∀ s : List Char, s ≠ [] → pySplitlines (q ++ '\n' :: s) = q :: pySplitlines s := by
  intro q
  induction q with
  | nil =>
      intro _ s hs
      show pySplitlines ('\n' :: s) = [] :: pySplitlines s
      rw [pySplitlines]
      rw [if_neg (by rintro ⟨h, -⟩; exact absurd h (by decide))]
      rw [if_pos (by decide)]
  | cons c r ih =>
      intro hq s hs
      have hc : isLineBreak c = false := hq c (List.mem_cons_self c r)
      have hcr : ¬ (c = '\r' ∧ (r ++ '\n' :: s).head? = some '\n') := by
        rintro ⟨hcc, -⟩
        rw [hcc] at hc
        simp [isLineBreak] at hc
      rw [List.cons_append, pySplitlines, if_neg hcr, if_neg (by simp [hc])]
      rw [ih (fun d hd => hq d (List.mem_cons_of_mem c hd)) s hs]

theorem joinLines_cons_ne_nil (l : List Char) (ls : List (List Char)) (hl : l ≠ []) :
    joinLines (l :: ls) ≠ [] := by
  cases ls with
  | nil => simpa [joinLines] using hl
  | cons l2 ls2 => simp [joinLines]

theorem pySplitlines_joinLines : ∀ qs : List (List Char),
    (∀ q ∈ qs, ∀ c ∈ q, isLineBreak c = false) → (∀ q ∈ qs, q ≠ []) →
    pySplitlines (joinLines qs) = qs := by
  intro qs
  induction qs with
  | nil =>
      intro _ _
      rw [show joinLines [] = [] from rfl, pySplitlines]
  | cons q qs ih =>
      intro h1 h2
      cases qs with
      | nil =>
          show pySplitlines (joinLines [q]) = [q]
          rw [show joinLines [q] = q from rfl]
          exact pySplitlines_single q (h1 q (by simp)) (h2 q (by simp))
      | cons q2 rest =>
          rw [show joinLines (q :: q2 :: rest) = q ++ '\n' :: joinLines (q2 :: rest) from rfl]
          rw [pySplitlines_append q (h1 q (by simp)) _
            (joinLines_cons_ne_nil q2 rest (h2 q2 (by simp)))]
          rw [ih (fun p hp => h1 p (List.mem_cons_of_mem q hp))
            (fun p hp => h2 p (List.mem_cons_of_mem q hp))]

/-- C6: for every text of N lines, the `$MYPAGE_LAST_PAGE_QUOTED` quoting
yields exactly N lines, each equal to the corresponding input line prefixed
by the two characters `"> "`. -/
theorem c6_quoted_line_structure (text : String) :
    pySplitlines (quoteText text).data
      = (pySplitlines text.data).map (fun l => '>' :: ' ' :: l) ∧
    (pySplitlines (quoteText text).data).length = (pySplitlines text.data).length := by
  have h1 : ∀ q ∈ (pySplitlines text.data).map (fun l => '>' :: ' ' :: l),
      ∀ c ∈ q, isLineBreak c = false := by
    intro q hq c hc
    obtain ⟨l, hl, rfl⟩ := List.mem_map.mp hq
    rcases List.mem_cons.mp hc with rfl | hc2
    · decide
    · rcases List.mem_cons.mp hc2 with rfl | hc3
      · decide
      · exact pySplitlines_no_break text.data l hl c hc3
  have h2 : ∀ q ∈ (pySplitlines text.data).map (fun l => '>' :: ' ' :: l), q ≠ [] := by
    intro q hq
    obtain ⟨l, hl, rfl⟩ := List.mem_map.mp hq
    simp
  have hmain : pySplitlines (quoteText text).data
      = (pySplitlines text.data).map (fun l => '>' :: ' ' :: l) :=
    pySplitlines_joinLines _ h1 h2
  exact ⟨hmain, by rw [hmain, List.length_map]⟩

theorem prefixOf_eq_true_iff (l1 l2 : List Char) : l1.isPrefixOf l2 = true ↔ l1 <+: l2 := by
  exact List.isPrefixOf_iff_prefix

theorem occursIn_iff (pat s : List Char) : occursIn pat s = true ↔ pat <:+: s := by
  induction s with
  | nil =>
      show pat.isEmpty = true ↔ pat <:+: []
      rw [List.isEmpty_iff, List.infix_nil]
  | cons c rest ih =>
      show (pat.isPrefixOf (c :: rest) || occursIn pat rest) = true ↔ pat <:+: c :: rest
      rw [Bool.or_eq_true, prefixOf_eq_true_iff, ih, List.infix_cons_iff]

theorem replaceAll_nil_eq (pat rep : List Char) : replaceAll pat rep [] = [] := by
  rw [replaceAll]

theorem replaceAll_of_not_occurs (pat rep s : List Char) (hp : pat ≠ [])
    (h : ¬ pat <:+: s) : replaceAll pat rep s = s := by
  induction s with
  | nil => exact replaceAll_nil_eq pat rep
  | cons c rest ih =>
      rw [replaceAll]
      rw [if_neg (fun hc => h (by
        obtain ⟨t, ht⟩ := (prefixOf_eq_true_iff pat (c :: rest)).mp hc.2
        exact ⟨[], t, by simpa using ht⟩))]
      rw [ih (fun hinf => h (List.infix_cons hinf))]

theorem replaceAll_append_left (pat rep : List Char) (hd : pat.head? = some '$') :
    ∀ a s : List Char, (∀ c ∈ a, c ≠ '$') →
      replaceAll pat rep (a ++ s) = a ++ replaceAll pat rep s := by
  intro a
  induction a with
  | nil => exact fun s _ => rfl
  | cons c a2 ih =>
      intro s ha
      have hc : c ≠ '$' := ha c (List.mem_cons_self c a2)
      rw [List.cons_append, replaceAll]
      rw [if_neg ?side]
      · rw [ih s (fun d hd2 => ha d (List.mem_cons_of_mem c hd2))]
        rw [List.cons_append]
      case side =>
        rintro ⟨-, hp2⟩
        obtain ⟨t, ht⟩ := (prefixOf_eq_true_iff _ _).mp hp2
        cases pat with
        | nil => exact Option.noConfusion hd
        | cons p0 pt =>
            have hp0 : p0 = '$' := by simpa using hd
            rw [List.cons_append] at ht
            have : p0 = c := (List.cons.injEq _ _ _ _).mp ht |>.1
            exact hc (hp0 ▸ this.symm)

theorem replaceAll_cons_match (pat rep s : List Char) (hp : pat ≠ []) :
    replaceAll pat rep (pat ++ s) = rep ++ replaceAll pat rep s := by
  cases pat with
  | nil => exact absurd rfl hp
  | cons p0 pt =>
      rw [List.cons_append, replaceAll]
      rw [if_pos ⟨by simp, (prefixOf_eq_true_iff _ _).mpr ⟨s, by simp⟩⟩]
      congr 1
      have hdrop : (pt ++ s).drop ((p0 :: pt).length - 1) = s := by
        simp only [List.length_cons, Nat.add_sub_cancel]
        exact List.drop_left pt s
      rw [hdrop]

theorem replaceAll_of_no_dollar (pat rep s : List Char) (hd : pat.head? = some '$')
    (hs : ∀ c ∈ s, c ≠ '$') : replaceAll pat rep s = s := by
  have h := replaceAll_append_left pat rep hd s [] hs
  rw [List.append_nil, replaceAll_nil_eq, List.append_nil] at h
  exact h

/-- C5: template expansion is the identity on every template text containing
no occurrence of any of the eight token placeholders. -/
theorem c5_no_tokens_identity (t : String) (v : TokenValues)
    (h : ∀ tok ∈ allTokens, occursIn tok.data t.data = false) :
    expandTemplate t v = t := by
  have key : ∀ tok rep : String, tok ∈ allTokens → pyReplace t tok rep = t := by
    intro tok rep htok
    have hninf : ¬ tok.data <:+: t.data := by
      intro hinf
      have h1 := h tok htok
      rw [(occursIn_iff tok.data t.data).mpr hinf] at h1
      exact Bool.noConfusion h1
    have hne : tok.data ≠ [] := by
      fin_cases htok <;> simp [tokDate, tokIsodate, tokUser, tokAuthor, tokLpLink,
        tokLpName, tokLpText, tokLpQuoted]
    show String.mk (replaceAll tok.data rep.data t.data) = t
    rw [replaceAll_of_not_occurs tok.data rep.data t.data hne hninf]
  unfold expandTemplate
  rw [key tokDate v.date (by simp [allTokens])]
  rw [key tokIsodate v.isodate (by simp [allTokens])]
  rw [key tokUser v.user (by simp [allTokens])]
  rw [key tokAuthor v.author (by simp [allTokens])]
  rw [key tokLpLink v.lp_link (by simp [allTokens])]
  rw [key tokLpName (v.lp_name.getD "") (by simp [allTokens])]
  rw [key tokLpText (v.lp_text.getD "") (by simp [allTokens])]
  rw [key tokLpQuoted (v.lp_quoted.getD "") (by simp [allTokens])]

/-- Witness for C5 at a token-free template. -/
theorem c5_no_tokens_identity_witness :
    expandTemplate "hello world" (TokenValues.mk "d" "i" "u" "a" "l" none none none)
      = "hello world" :=
  c5_no_tokens_identity "hello world" (TokenValues.mk "d" "i" "u" "a" "l" none none none)
    (by decide)

theorem noDollar_iff (s : String) : noDollar s = true ↔ ∀ c ∈ s.data, c ≠ '$' := by
  unfold noDollar
  rw [List.all_eq_true]
  constructor
  · intro h c hc
    simpa using h c hc
  · intro h c hc
    simpa using h c hc

theorem pyStrLe_trans (a b c : String) (h1 : pyStrLe a b = true)
    (h2 : pyStrLe b c = true) : pyStrLe a c = true :=
  (pyStrLe_iff a c).mpr (le_trans ((pyStrLe_iff a b).mp h1) ((pyStrLe_iff b c).mp h2))

theorem pyStrLe_total (a b : String) : (pyStrLe a b || pyStrLe b a) = true := by
  rcases le_total a b with h | h
  · simp [(pyStrLe_iff a b).mpr h]
  · simp [(pyStrLe_iff b a).mpr h]

theorem get_all_mypages_mem (pages : List String) (x : String) :
    x ∈ get_all_mypages pages ↔ x ∈ pages ∧ mypageRegexAccepts x.data = true := by
  unfold get_all_mypages
  rw [List.mem_mergeSort, List.mem_filter]

theorem get_all_mypages_sorted (pages : List String) :
    (get_all_mypages pages).Sorted (· ≤ ·) := by
  have hp := @List.sorted_mergeSort String pyStrLe
    (fun a b c => pyStrLe_trans a b c) (fun a b => pyStrLe_total a b)
    (pages.filter (fun p => mypageRegexAccepts p.data))
  exact hp.imp (fun hab => (pyStrLe_iff _ _).mp hab)

theorem isDigit_toNat (c : Char) (h : c.isDigit = true) :
    48 ≤ c.toNat ∧ c.toNat ≤ 57 := by
  simp only [Char.isDigit, Bool.and_eq_true, decide_eq_true_eq] at h
  obtain ⟨h1, h2⟩ := h
  have h1n : (48 : UInt32).toNat ≤ c.val.toNat := h1
  have h2n : c.val.toNat ≤ (57 : UInt32).toNat := h2
  have e1 : (48 : UInt32).toNat = 48 := by decide
  have e2 : (57 : UInt32).toNat = 57 := by decide
  have ec : c.toNat = c.val.toNat := rfl
  omega

theorem digit_lt_iff (a b : Char) (ha : a.isDigit = true) (hb : b.isDigit = true) :
    a.val < b.val ↔ dval a < dval b := by
  obtain ⟨ha1, ha2⟩ := isDigit_toNat a ha
  obtain ⟨hb1, hb2⟩ := isDigit_toNat b hb
  have e : (a.val < b.val) ↔ a.toNat < b.toNat := Iff.rfl
  rw [e]
  unfold dval
  omega

theorem digitsVal_lt_pow : ∀ l : List Char, (∀ c ∈ l, c.isDigit = true) →
    digitsVal l < 10 ^ l.length := by
  intro l
  induction l with
  | nil => intro _; simp [digitsVal]
  | cons c cs ih =>
      intro h
      have hd9 : dval c ≤ 9 := by
        obtain ⟨h1, h2⟩ := isDigit_toNat c (h c (List.mem_cons_self c cs))
        unfold dval
        omega
      have hih := ih (fun x hx => h x (List.mem_cons_of_mem c hx))
      show dval c * 10 ^ cs.length + digitsVal cs < 10 ^ (c :: cs).length
      rw [List.length_cons, pow_succ]
      have h2 : dval c * 10 ^ cs.length ≤ 9 * 10 ^ cs.length :=
        Nat.mul_le_mul_right _ hd9
      omega

theorem digitsVal_cons_lt (c d : Char) (cs ds : List Char)
    (hlen : cs.length = ds.length)
    (hcs : ∀ x ∈ cs, x.isDigit = true)
    (hdv : dval c < dval d) :
    digitsVal (c :: cs) < digitsVal (d :: ds) := by
  show dval c * 10 ^ cs.length + digitsVal cs < dval d * 10 ^ ds.length + digitsVal ds
  have hcsb : digitsVal cs < 10 ^ cs.length := digitsVal_lt_pow cs hcs
  have h1 : dval c * 10 ^ cs.length + digitsVal cs < (dval c + 1) * 10 ^ cs.length := by
    rw [Nat.add_mul, Nat.one_mul]
    omega
  have h2 : (dval c + 1) * 10 ^ cs.length ≤ dval d * 10 ^ cs.length :=
    Nat.mul_le_mul_right _ (by omega)
  rw [hlen] at h1 h2
  rw [hlen]
  omega

theorem digitsVal_inj : ∀ l1 l2 : List Char, l1.length = l2.length →
    (∀ c ∈ l1, c.isDigit = true) → (∀ c ∈ l2, c.isDigit = true) →
    digitsVal l1 = digitsVal l2 → l1 = l2 := by
  intro l1
  induction l1 with
  | nil =>
      intro l2 hlen _ _ _
      exact (List.length_eq_zero.mp hlen.symm).symm
  | cons c cs ih =>
      intro l2 hlen h1 h2 hval
      cases l2 with
      | nil => simp at hlen
      | cons d ds =>
          have hlen2 : cs.length = ds.length := by simpa using hlen
          have hcdig := h1 c (List.mem_cons_self c cs)
          have hddig := h2 d (List.mem_cons_self d ds)
          have hcs := fun x hx => h1 x (List.mem_cons_of_mem c hx)
          have hds := fun x hx => h2 x (List.mem_cons_of_mem d hx)
          have hdveq : dval c = dval d := by
            by_contra hne
            rcases Nat.lt_or_ge (dval c) (dval d) with hlt | hge
            · exact absurd hval (Nat.ne_of_lt (digitsVal_cons_lt c d cs ds hlen2 hcs hlt))
            · have hgt : dval d < dval c := by omega
              exact absurd hval.symm
                (Nat.ne_of_lt (digitsVal_cons_lt d c ds cs hlen2.symm hds hgt))
          have hceq : c = d := by
            obtain ⟨hc1, hc2⟩ := isDigit_toNat c hcdig
            obtain ⟨hd1, hd2⟩ := isDigit_toNat d hddig
            apply Char.ext
            apply UInt32.ext
            have ec : c.toNat = c.val.toNat := rfl
            have ed : d.toNat = d.val.toNat := rfl
            unfold dval at hdveq
            omega
          subst hceq
          have hveq : digitsVal cs = digitsVal ds := by
            have e1 : digitsVal (c :: cs) = dval c * 10 ^ cs.length + digitsVal cs := rfl
            have e2 : digitsVal (c :: ds) = dval c * 10 ^ ds.length + digitsVal ds := rfl
            rw [e1, e2, hlen2] at hval
            omega
          rw [ih ds hlen2 hcs hds hveq]

theorem clLt_cons_same (c : Char) (x y : List Char) :
    clLt (c :: x) (c :: y) = clLt x y := by
  show (if c.val < c.val then true else if c.val < c.val then false else clLt x y) = clLt x y
  rw [if_neg (show ¬ c.val < c.val from Nat.lt_irrefl c.val.toNat),
    if_neg (show ¬ c.val < c.val from Nat.lt_irrefl c.val.toNat)]

theorem clLt_append_left : ∀ p x y : List Char, clLt (p ++ x) (p ++ y) = clLt x y := by
  intro p
  induction p with
  | nil => intro x y; rfl
  | cons c p2 ih =>
      intro x y
      rw [List.cons_append, List.cons_append, clLt_cons_same, ih]

theorem clLt_digit_blocks : ∀ l1 l2 r1 r2 : List Char, l1.length = l2.length →
    (∀ c ∈ l1, c.isDigit = true) → (∀ c ∈ l2, c.isDigit = true) →
    (clLt (l1 ++ r1) (l2 ++ r2) = true ↔
      digitsVal l1 < digitsVal l2 ∨ (l1 = l2 ∧ clLt r1 r2 = true)) := by
  intro l1
  induction l1 with
  | nil =>
      intro l2 r1 r2 hlen _ _
      have h0 : l2 = [] := List.length_eq_zero.mp hlen.symm
      subst h0
      simp [digitsVal]
  | cons c cs ih =>
      intro l2 r1 r2 hlen h1 h2
      cases l2 with
      | nil => simp at hlen
      | cons d ds =>
          have hlen2 : cs.length = ds.length := by simpa using hlen
          have hcdig := h1 c (List.mem_cons_self c cs)
          have hddig := h2 d (List.mem_cons_self d ds)
          have hcs := fun x hx => h1 x (List.mem_cons_of_mem c hx)
          have hds := fun x hx => h2 x (List.mem_cons_of_mem d hx)
          rw [List.cons_append, List.cons_append]
          show (if c.val < d.val then true else if d.val < c.val then false
            else clLt (cs ++ r1) (ds ++ r2)) = true ↔ _
          by_cases hlt : c.val < d.val
          · rw [if_pos hlt]
            refine iff_of_true rfl (Or.inl ?_)
            exact digitsVal_cons_lt c d cs ds hlen2 hcs
              ((digit_lt_iff c d hcdig hddig).mp hlt)
          · rw [if_neg hlt]
            by_cases hgt : d.val < c.val
            · rw [if_pos hgt]
              refine iff_of_false (by simp) ?_
              rintro (hv | ⟨heq, -⟩)
              · have hrev := digitsVal_cons_lt d c ds cs hlen2.symm hds
                  ((digit_lt_iff d c hddig hcdig).mp hgt)
                omega
              · have hcd : c = d := ((List.cons.injEq _ _ _ _).mp heq).1
                subst hcd
                exact Nat.lt_irrefl c.val.toNat hgt
            · have hcd : c = d := char_eq_of_not_val_lt c d hlt hgt
              subst hcd
              rw [if_neg hgt]
              rw [ih ds r1 r2 hlen2 hcs hds]
              have he1 : digitsVal (c :: cs) = dval c * 10 ^ cs.length + digitsVal cs := rfl
              have he2 : digitsVal (c :: ds) = dval c * 10 ^ ds.length + digitsVal ds := rfl
              constructor
              · rintro (hv | ⟨heq, hr⟩)
                · left
                  rw [he1, he2, hlen2]
                  omega
                · exact Or.inr ⟨by rw [heq], hr⟩
              · rintro (hv | ⟨heq, hr⟩)
                · left
                  rw [he1, he2, hlen2] at hv
                  omega
                · right
                  have hcseq : cs = ds := ((List.cons.injEq _ _ _ _).mp heq).2
                  exact ⟨by rw [hcseq], hr⟩

theorem clLt_digits (l1 l2 : List Char) (hlen : l1.length = l2.length)
    (h1 : ∀ c ∈ l1, c.isDigit = true) (h2 : ∀ c ∈ l2, c.isDigit = true) :
    clLt l1 l2 = true ↔ digitsVal l1 < digitsVal l2 := by
  have h := clLt_digit_blocks l1 l2 [] [] hlen h1 h2
  rw [List.append_nil, List.append_nil] at h
  rw [h]
  have hff : clLt [] [] = false := rfl
  rw [hff]
  simp

theorem dateShape_decomp (l : List Char) (h : dateShape l = true) :
    ∃ a1 a2 a3 a4 b1 b2 c1 c2 : Char,
      l = [a1, a2, a3, a4, '-', b1, b2, '-', c1, c2] ∧
      (∀ c ∈ [a1, a2, a3, a4], c.isDigit = true) ∧
      (∀ c ∈ [b1, b2], c.isDigit = true) ∧
      (∀ c ∈ [c1, c2], c.isDigit = true) := by
  rcases l with _ | ⟨c0, _ | ⟨c1, _ | ⟨c2, _ | ⟨c3, _ | ⟨c4, _ | ⟨c5, _ | ⟨c6, _ |
    ⟨c7, _ | ⟨c8, _ | ⟨c9, _ | ⟨c10, t⟩⟩⟩⟩⟩⟩⟩⟩⟩⟩⟩ <;>
    simp only [dateShape, Bool.and_eq_true, beq_iff_eq, Bool.false_eq_true] at h
  obtain ⟨⟨⟨⟨⟨⟨⟨⟨⟨hy1, hy2⟩, hy3⟩, hy4⟩, hs1⟩, hm1⟩, hm2⟩, hs2⟩, hd1⟩, hd2⟩ := h
  subst hs1
  subst hs2
  refine ⟨c0, c1, c2, c3, c5, c6, c8, c9, rfl, ?_, ?_, ?_⟩
  · intro c hc
    rcases List.mem_cons.mp hc with rfl | hc
    · exact hy1
    rcases List.mem_cons.mp hc with rfl | hc
    · exact hy2
    rcases List.mem_cons.mp hc with rfl | hc
    · exact hy3
    rcases List.mem_cons.mp hc with rfl | hc
    · exact hy4
    simp at hc
  · intro c hc
    rcases List.mem_cons.mp hc with rfl | hc
    · exact hm1
    rcases List.mem_cons.mp hc with rfl | hc
    · exact hm2
    simp at hc
  · intro c hc
    rcases List.mem_cons.mp hc with rfl | hc
    · exact hd1
    rcases List.mem_cons.mp hc with rfl | hc
    · exact hd2
    simp at hc

theorem clLt_dateShape (l1 l2 : List Char) (h1 : dateShape l1 = true)
    (h2 : dateShape l2 = true) :
    clLt l1 l2 = true ↔ dateVal l1 < dateVal l2 := by
  obtain ⟨a1, a2, a3, a4, b1, b2, c1, c2, hl1, hY1, hM1, hD1⟩ := dateShape_decomp l1 h1
  obtain ⟨p1, p2, p3, p4, q1, q2, s1, s2, hl2, hY2, hM2, hD2⟩ := dateShape_decomp l2 h2
  subst hl1
  subst hl2
  have hsplit1 : ([a1, a2, a3, a4, '-', b1, b2, '-', c1, c2] : List Char)
      = [a1, a2, a3, a4] ++ ('-' :: ([b1, b2] ++ ('-' :: [c1, c2]))) := rfl
  have hsplit2 : ([p1, p2, p3, p4, '-', q1, q2, '-', s1, s2] : List Char)
      = [p1, p2, p3, p4] ++ ('-' :: ([q1, q2] ++ ('-' :: [s1, s2]))) := rfl
  rw [show clLt [a1, a2, a3, a4, '-', b1, b2, '-', c1, c2]
        [p1, p2, p3, p4, '-', q1, q2, '-', s1, s2]
      = clLt ([a1, a2, a3, a4] ++ ('-' :: ([b1, b2] ++ ('-' :: [c1, c2]))))
        ([p1, p2, p3, p4] ++ ('-' :: ([q1, q2] ++ ('-' :: [s1, s2])))) from rfl]
  rw [clLt_digit_blocks [a1, a2, a3, a4] [p1, p2, p3, p4] _ _ rfl hY1 hY2]
  rw [clLt_cons_same]
  rw [clLt_digit_blocks [b1, b2] [q1, q2] _ _ rfl hM1 hM2]
  rw [clLt_cons_same]
  rw [clLt_digits [c1, c2] [s1, s2] rfl hD1 hD2]
  have hdv1 : dateVal [a1, a2, a3, a4, '-', b1, b2, '-', c1, c2]
      = digitsVal [a1, a2, a3, a4] * 10000 + digitsVal [b1, b2] * 100
        + digitsVal [c1, c2] := rfl
  have hdv2 : dateVal [p1, p2, p3, p4, '-', q1, q2, '-', s1, s2]
      = digitsVal [p1, p2, p3, p4] * 10000 + digitsVal [q1, q2] * 100
        + digitsVal [s1, s2] := rfl
  rw [hdv1, hdv2]
  have hYiff : [a1, a2, a3, a4] = [p1, p2, p3, p4] ↔
      digitsVal [a1, a2, a3, a4] = digitsVal [p1, p2, p3, p4] :=
    ⟨fun hh => by rw [hh], fun hh => digitsVal_inj _ _ rfl hY1 hY2 hh⟩
  have hMiff : [b1, b2] = [q1, q2] ↔ digitsVal [b1, b2] = digitsVal [q1, q2] :=
    ⟨fun hh => by rw [hh], fun hh => digitsVal_inj _ _ rfl hM1 hM2 hh⟩
  rw [hYiff, hMiff]
  have hbm1 : digitsVal [b1, b2] < 100 := by
    have := digitsVal_lt_pow [b1, b2] hM1
    norm_num at this
    exact this
  have hbm2 : digitsVal [q1, q2] < 100 := by
    have := digitsVal_lt_pow [q1, q2] hM2
    norm_num at this
    exact this
  have hbd1 : digitsVal [c1, c2] < 100 := by
    have := digitsVal_lt_pow [c1, c2] hD1
    norm_num at this
    exact this
  have hbd2 : digitsVal [s1, s2] < 100 := by
    have := digitsVal_lt_pow [s1, s2] hD2
    norm_num at this
    exact this
  omega

theorem pyStrLe_names (pre d1 d2 : String) (h1 : dateShape d1.data = true)
    (h2 : dateShape d2.data = true) :
    (pre ++ d1 ≤ pre ++ d2) ↔ dateVal d1.data ≤ dateVal d2.data := by
  rw [← pyStrLe_iff]
  unfold pyStrLe clLe
  rw [Bool.not_eq_true']
  rw [String.data_append, String.data_append, clLt_append_left]
  constructor
  · intro h
    have hnt : ¬ (clLt d2.data d1.data = true) := by
      rw [h]
      simp
    rw [clLt_dateShape d2.data d1.data h2 h1] at hnt
    omega
  · intro h
    by_contra hne
    have ht : clLt d2.data d1.data = true := by
      cases hcl : clLt d2.data d1.data
      · exact absurd hcl hne
      · rfl
    rw [clLt_dateShape d2.data d1.data h2 h1] at ht
    omega

/-- C3 (amended): `get_all_mypages` returns exactly the wiki page names
accepted by the regex `.*/\d{4}-\d{2}-\d{2}` — which is anchored at the
start but not at the end, so it keeps any name containing a `'/'` followed
by a date-shaped block, trailing characters included — in lexicographically
sorted order; and for names formed as a common prefix followed by a
date-shaped block, this order coincides with the chronological order of
the date values. -/
theorem c3_page_listing (pages : List String) (x : String) (pre d1 d2 : String)
    (hd1 : dateShape d1.data = true) (hd2 : dateShape d2.data = true) :
    (x ∈ get_all_mypages pages ↔ x ∈ pages ∧ mypageRegexAccepts x.data = true) ∧
    (get_all_mypages pages).Sorted (· ≤ ·) ∧
    ((pre ++ d1 ≤ pre ++ d2) ↔ dateVal d1.data ≤ dateVal d2.data) :=
  ⟨get_all_mypages_mem pages x, get_all_mypages_sorted pages,
    pyStrLe_names pre d1 d2 hd1 hd2⟩

/-- Counterexample for C3 as stated: the regex is not end-anchored, so a
page whose suffix is not an ISO date is still returned — `get_all_mypages`
keeps `alice/2024-01-01x` although its ten-character suffix is not a
`\d{4}-\d{2}-\d{2}` block. -/
theorem c3_page_listing_counterexample :
    get_all_mypages ["alice/2024-01-01x"] = ["alice/2024-01-01x"] ∧
    specSuffixDate "alice/2024-01-01x" = false := by
  constructor
  · simp [get_all_mypages,
      show mypageRegexAccepts "alice/2024-01-01x".data = true from by decide]
  · decide

/-- Witness for C3 at concrete dates, with the chronological values
evaluated. -/
theorem c3_page_listing_witness :
    (("u/" ++ "2024-01-02" ≤ "u/" ++ "2024-01-10") ↔
      dateVal "2024-01-02".data ≤ dateVal "2024-01-10".data) ∧
    dateVal "2024-01-02".data = 20240102 ∧ dateVal "2024-01-10".data = 20240110 :=
  ⟨(c3_page_listing [] "x" "u/" "2024-01-02" "2024-01-10" (by decide) (by decide)).2.2,
    by decide, by decide⟩

theorem allTokens_facts : ∀ t ∈ allTokens,
    t.data.head? = some '$' ∧ ∀ c ∈ t.data.tail, c ≠ '$' := by decide

theorem allTokens_has_dollar : ∀ t ∈ allTokens, ('$' : Char) ∈ t.data := by decide

theorem allTokens_prefix_free : ∀ t1 ∈ allTokens, ∀ t2 ∈ allTokens, t1 ≠ t2 →
    t1.data.isPrefixOf t2.data = false := by decide

theorem noDollar_ne_token (s t : String) (hs : noDollar s = true)
    (ht : t ∈ allTokens) : s ≠ t := by
  intro he
  subst he
  exact (noDollar_iff s).mp hs '$' (allTokens_has_dollar s ht) rfl

theorem tokenPairs_fst_mem (v : TokenValues) : ∀ p ∈ tokenPairs v, p.1 ∈ allTokens := by
  intro p hp
  fin_cases hp <;> simp [allTokens]

theorem replaceAll_cons_no_match (pat rep : List Char) (c : Char) (s : List Char)
    (hnp : ¬ pat.isPrefixOf (c :: s) = true) :
    replaceAll pat rep (c :: s) = c :: replaceAll pat rep s := by
  rw [replaceAll, if_neg (fun hc => hnp hc.2)]

theorem renderChars_congr (g1 g2 : String × String → String) :
    ∀ items : List ((String × String) × String),
    (∀ it ∈ items, g1 it.1 = g2 it.1) →
    renderChars g1 items = renderChars g2 items := by
  intro items
  induction items with
  | nil => intro _; rfl
  | cons it rest ih =>
      intro h
      show (g1 it.1).data ++ (it.2.data ++ renderChars g1 rest)
        = (g2 it.1).data ++ (it.2.data ++ renderChars g2 rest)
      rw [h it (List.mem_cons_self it rest),
        ih (fun x hx => h x (List.mem_cons_of_mem it hx))]

theorem replaceAll_renderChars (tok rep : String) (htok : tok ∈ allTokens)
    (g : String × String → String) :
    ∀ items : List ((String × String) × String),
      (∀ it ∈ items, g it.1 ∈ allTokens ∨ noDollar (g it.1) = true) →
      (∀ it ∈ items, noDollar it.2 = true) →
      ∀ lead : List Char, (∀ c ∈ lead, c ≠ '$') →
      replaceAll tok.data rep.data (lead ++ renderChars g items)
        = lead ++ renderChars (fun p => if g p = tok then rep else g p) items := by
  have hd : tok.data.head? = some '$' := (allTokens_facts tok htok).1
  have htokne : tok.data ≠ [] := by
    intro he
    rw [he] at hd
    exact Option.noConfusion hd
  intro items
  induction items with
  | nil =>
      intro _ _ lead hlead
      simpa [renderChars] using replaceAll_of_no_dollar tok.data rep.data lead hd hlead
  | cons it rest ih =>
      intro hg hlits lead hlead
      have hlit : ∀ c ∈ it.2.data, c ≠ '$' :=
        (noDollar_iff it.2).mp (hlits it (List.mem_cons_self it rest))
      have hgrest : ∀ x ∈ rest, g x.1 ∈ allTokens ∨ noDollar (g x.1) = true :=
        fun x hx => hg x (List.mem_cons_of_mem it hx)
      have hlrest : ∀ x ∈ rest, noDollar x.2 = true :=
        fun x hx => hlits x (List.mem_cons_of_mem it hx)
      have hrest0 : replaceAll tok.data rep.data (renderChars g rest)
          = renderChars (fun p => if g p = tok then rep else g p) rest := by
        have h := ih hgrest hlrest [] (fun c hc => absurd hc (List.not_mem_nil c))
        simpa using h
      show replaceAll tok.data rep.data
          (lead ++ ((g it.1).data ++ (it.2.data ++ renderChars g rest)))
        = lead ++ ((if g it.1 = tok then rep else g it.1).data
            ++ (it.2.data ++ renderChars (fun p => if g p = tok then rep else g p) rest))
      rw [replaceAll_append_left tok.data rep.data hd lead _ hlead]
      congr 1
      by_cases heq : g it.1 = tok
      · rw [heq, if_pos rfl]
        rw [replaceAll_cons_match tok.data rep.data _ htokne]
        rw [replaceAll_append_left tok.data rep.data hd it.2.data _ hlit]
        rw [hrest0]
      · rw [if_neg heq]
        rcases hg it (List.mem_cons_self it rest) with hmem | hclean
        · have hfacts := allTokens_facts (g it.1) hmem
          obtain ⟨m0, mt, hmd⟩ : ∃ m0 mt, (g it.1).data = m0 :: mt := by
            cases hmd : (g it.1).data with
            | nil => rw [hmd] at hfacts; exact Option.noConfusion hfacts.1
            | cons a b => exact ⟨a, b, rfl⟩
          have hmt : ∀ c ∈ mt, c ≠ '$' := by
            intro c hc
            have h2 := hfacts.2
            rw [hmd] at h2
            exact h2 c hc
          have hnp : ¬ tok.data.isPrefixOf
              (m0 :: (mt ++ (it.2.data ++ renderChars g rest))) = true := by
            intro hp
            have h1 : tok.data <+: (g it.1).data ++ (it.2.data ++ renderChars g rest) := by
              rw [hmd, List.cons_append]
              exact (prefixOf_eq_true_iff _ _).mp hp
            have h2 : (g it.1).data <+: (g it.1).data ++ (it.2.data ++ renderChars g rest) :=
              ⟨_, rfl⟩
            rcases List.prefix_or_prefix_of_prefix h1 h2 with hc | hc
            · have hf := allTokens_prefix_free tok htok (g it.1) hmem
                (fun he => heq he.symm)
              rw [(prefixOf_eq_true_iff _ _).mpr hc] at hf
              exact Bool.noConfusion hf
            · have hf := allTokens_prefix_free (g it.1) hmem tok htok heq
              rw [(prefixOf_eq_true_iff _ _).mpr hc] at hf
              exact Bool.noConfusion hf
          rw [show (g it.1).data ++ (it.2.data ++ renderChars g rest)
              = m0 :: (mt ++ (it.2.data ++ renderChars g rest)) from by
            rw [hmd, List.cons_append]]
          rw [replaceAll_cons_no_match tok.data rep.data m0 _ hnp]
          rw [replaceAll_append_left tok.data rep.data hd mt _ hmt]
          rw [replaceAll_append_left tok.data rep.data hd it.2.data _ hlit]
          rw [hrest0]
          rw [show m0 :: (mt ++ (it.2.data
                ++ renderChars (fun p => if g p = tok then rep else g p) rest))
              = (g it.1).data ++ (it.2.data
                ++ renderChars (fun p => if g p = tok then rep else g p) rest) from by
            rw [hmd, List.cons_append]]
        · have hcl : ∀ c ∈ (g it.1).data, c ≠ '$' := (noDollar_iff _).mp hclean
          rw [replaceAll_append_left tok.data rep.data hd (g it.1).data _ hcl]
          rw [replaceAll_append_left tok.data rep.data hd it.2.data _ hlit]
          rw [hrest0]

theorem pyReplace_renderChars (tok rep : String) (htok : tok ∈ allTokens)
    (g : String × String → String)
    (items : List ((String × String) × String))
    (hg : ∀ it ∈ items, g it.1 ∈ allTokens ∨ noDollar (g it.1) = true)
    (hlits : ∀ it ∈ items, noDollar it.2 = true)
    (lead : String) (hlead : noDollar lead = true) :
    pyReplace (String.mk (lead.data ++ renderChars g items)) tok rep
      = String.mk (lead.data ++ renderChars (fun p => if g p = tok then rep else g p) items) := by
  show String.mk (replaceAll tok.data rep.data (lead.data ++ renderChars g items)) = _
  rw [replaceAll_renderChars tok rep htok g items hg hlits lead.data
    ((noDollar_iff lead).mp hlead)]

theorem applyPasses_renderChars :
    ∀ ps : List (String × String),
    (∀ pr ∈ ps, pr.1 ∈ allTokens ∧ noDollar pr.2 = true) →
    ∀ g : String × String → String,
    ∀ items : List ((String × String) × String),
      (∀ it ∈ items, g it.1 ∈ allTokens ∨ noDollar (g it.1) = true) →
      (∀ it ∈ items, noDollar it.2 = true) →
    ∀ lead : String, noDollar lead = true →
    applyPasses ps (String.mk (lead.data ++ renderChars g items))
      = String.mk (lead.data ++ renderChars (fun p => substChain ps (g p)) items) := by
  intro ps
  induction ps with
  | nil =>
      intro _ g items _ _ lead _
      show String.mk (lead.data ++ renderChars g items) = _
      have he : (fun p => substChain [] (g p)) = g := funext (fun p => rfl)
      rw [he]
  | cons pr rest ih =>
      intro hps g items hg hlits lead hlead
      have hpr := hps pr (List.mem_cons_self pr rest)
      have hrest := fun q hq => hps q (List.mem_cons_of_mem pr hq)
      show applyPasses rest
        (pyReplace (String.mk (lead.data ++ renderChars g items)) pr.1 pr.2) = _
      rw [pyReplace_renderChars pr.1 pr.2 hpr.1 g items hg hlits lead hlead]
      have hg2 : ∀ it ∈ items,
          (fun p => if g p = pr.1 then pr.2 else g p) it.1 ∈ allTokens ∨
          noDollar ((fun p => if g p = pr.1 then pr.2 else g p) it.1) = true := by
        intro it hit
        dsimp only
        by_cases h : g it.1 = pr.1
        · rw [if_pos h]
          exact Or.inr hpr.2
        · rw [if_neg h]
          exact hg it hit
      rw [ih hrest _ items hg2 hlits lead hlead]
      have he : (fun p => substChain rest (if g p = pr.1 then pr.2 else g p))
          = fun p => substChain (pr :: rest) (g p) := funext (fun p => rfl)
      rw [he]

theorem substChain_tokenPairs (v : TokenValues)
    (hv : ∀ p ∈ tokenPairs v, noDollar p.2 = true) :
    ∀ p ∈ tokenPairs v, substChain (tokenPairs v) p.1 = p.2 := by
  have hd : noDollar v.date = true := hv (tokDate, v.date) (by simp [tokenPairs])
  have hi : noDollar v.isodate = true := hv (tokIsodate, v.isodate) (by simp [tokenPairs])
  have hu : noDollar v.user = true := hv (tokUser, v.user) (by simp [tokenPairs])
  have hau : noDollar v.author = true := hv (tokAuthor, v.author) (by simp [tokenPairs])
  have hl : noDollar v.lp_link = true := hv (tokLpLink, v.lp_link) (by simp [tokenPairs])
  have hn : noDollar (v.lp_name.getD "") = true :=
    hv (tokLpName, v.lp_name.getD "") (by simp [tokenPairs])
  have ht : noDollar (v.lp_text.getD "") = true :=
    hv (tokLpText, v.lp_text.getD "") (by simp [tokenPairs])
  have hq : noDollar (v.lp_quoted.getD "") = true :=
    hv (tokLpQuoted, v.lp_quoted.getD "") (by simp [tokenPairs])
  intro p hp
  fin_cases hp
  · show substChain (tokenPairs v) tokDate = v.date
    simp only [substChain, tokenPairs, List.foldl_cons, List.foldl_nil]
    simp only [eq_self_iff_true, if_true]
    rw [if_neg (noDollar_ne_token _ tokIsodate hd (by simp [allTokens]))]
    rw [if_neg (noDollar_ne_token _ tokUser hd (by simp [allTokens]))]
    rw [if_neg (noDollar_ne_token _ tokAuthor hd (by simp [allTokens]))]
    rw [if_neg (noDollar_ne_token _ tokLpLink hd (by simp [allTokens]))]
    rw [if_neg (noDollar_ne_token _ tokLpName hd (by simp [allTokens]))]
    rw [if_neg (noDollar_ne_token _ tokLpText hd (by simp [allTokens]))]
    rw [if_neg (noDollar_ne_token _ tokLpQuoted hd (by simp [allTokens]))]
  · show substChain (tokenPairs v) tokIsodate = v.isodate
    simp only [substChain, tokenPairs, List.foldl_cons, List.foldl_nil]
    rw [if_neg (show ¬ (tokIsodate = tokDate) from by decide)]
    simp only [eq_self_iff_true, if_true]
    rw [if_neg (noDollar_ne_token _ tokUser hi (by simp [allTokens]))]
    rw [if_neg (noDollar_ne_token _ tokAuthor hi (by simp [allTokens]))]
    rw [if_neg (noDollar_ne_token _ tokLpLink hi (by simp [allTokens]))]
    rw [if_neg (noDollar_ne_token _ tokLpName hi (by simp [allTokens]))]
    rw [if_neg (noDollar_ne_token _ tokLpText hi (by simp [allTokens]))]
    rw [if_neg (noDollar_ne_token _ tokLpQuoted hi (by simp [allTokens]))]
  · show substChain (tokenPairs v) tokUser = v.user
    simp only [substChain, tokenPairs, List.foldl_cons, List.foldl_nil]
    rw [if_neg (show ¬ (tokUser = tokDate) from by decide)]
    rw [if_neg (show ¬ (tokUser = tokIsodate) from by decide)]
    simp only [eq_self_iff_true, if_true]
    rw [if_neg (noDollar_ne_token _ tokAuthor hu (by simp [allTokens]))]
    rw [if_neg (noDollar_ne_token _ tokLpLink hu (by simp [allTokens]))]
    rw [if_neg (noDollar_ne_token _ tokLpName hu (by simp [allTokens]))]
    rw [if_neg (noDollar_ne_token _ tokLpText hu (by simp [allTokens]))]
    rw [if_neg (noDollar_ne_token _ tokLpQuoted hu (by simp [allTokens]))]
  · show substChain (tokenPairs v) tokAuthor = v.author
    simp only [substChain, tokenPairs, List.foldl_cons, List.foldl_nil]
    rw [if_neg (show ¬ (tokAuthor = tokDate) from by decide)]
    rw [if_neg (show ¬ (tokAuthor = tokIsodate) from by decide)]
    rw [if_neg (show ¬ (tokAuthor = tokUser) from by decide)]
    simp only [eq_self_iff_true, if_true]
    rw [if_neg (noDollar_ne_token _ tokLpLink hau (by simp [allTokens]))]
    rw [if_neg (noDollar_ne_token _ tokLpName hau (by simp [allTokens]))]
    rw [if_neg (noDollar_ne_token _ tokLpText hau (by simp [allTokens]))]
    rw [if_neg (noDollar_ne_token _ tokLpQuoted hau (by simp [allTokens]))]
  · show substChain (tokenPairs v) tokLpLink = v.lp_link
    simp only [substChain, tokenPairs, List.foldl_cons, List.foldl_nil]
    rw [if_neg (show ¬ (tokLpLink = tokDate) from by decide)]
    rw [if_neg (show ¬ (tokLpLink = tokIsodate) from by decide)]
    rw [if_neg (show ¬ (tokLpLink = tokUser) from by decide)]
    rw [if_neg (show ¬ (tokLpLink = tokAuthor) from by decide)]
    simp only [eq_self_iff_true, if_true]
    rw [if_neg (noDollar_ne_token _ tokLpName hl (by simp [allTokens]))]
    rw [if_neg (noDollar_ne_token _ tokLpText hl (by simp [allTokens]))]
    rw [if_neg (noDollar_ne_token _ tokLpQuoted hl (by simp [allTokens]))]
  · show substChain (tokenPairs v) tokLpName = v.lp_name.getD ""
    simp only [substChain, tokenPairs, List.foldl_cons, List.foldl_nil]
    rw [if_neg (show ¬ (tokLpName = tokDate) from by decide)]
    rw [if_neg (show ¬ (tokLpName = tokIsodate) from by decide)]
    rw [if_neg (show ¬ (tokLpName = tokUser) from by decide)]
    rw [if_neg (show ¬ (tokLpName = tokAuthor) from by decide)]
    rw [if_neg (show ¬ (tokLpName = tokLpLink) from by decide)]
    simp only [eq_self_iff_true, if_true]
    rw [if_neg (noDollar_ne_token _ tokLpText hn (by simp [allTokens]))]
    rw [if_neg (noDollar_ne_token _ tokLpQuoted hn (by simp [allTokens]))]
  · show substChain (tokenPairs v) tokLpText = v.lp_text.getD ""
    simp only [substChain, tokenPairs, List.foldl_cons, List.foldl_nil]
    rw [if_neg (show ¬ (tokLpText = tokDate) from by decide)]
    rw [if_neg (show ¬ (tokLpText = tokIsodate) from by decide)]
    rw [if_neg (show ¬ (tokLpText = tokUser) from by decide)]
    rw [if_neg (show ¬ (tokLpText = tokAuthor) from by decide)]
    rw [if_neg (show ¬ (tokLpText = tokLpLink) from by decide)]
    rw [if_neg (show ¬ (tokLpText = tokLpName) from by decide)]
    simp only [eq_self_iff_true, if_true]
    rw [if_neg (noDollar_ne_token _ tokLpQuoted ht (by simp [allTokens]))]
  · show substChain (tokenPairs v) tokLpQuoted = v.lp_quoted.getD ""
    simp only [substChain, tokenPairs, List.foldl_cons, List.foldl_nil]
    rw [if_neg (show ¬ (tokLpQuoted = tokDate) from by decide)]
    rw [if_neg (show ¬ (tokLpQuoted = tokIsodate) from by decide)]
    rw [if_neg (show ¬ (tokLpQuoted = tokUser) from by decide)]
    rw [if_neg (show ¬ (tokLpQuoted = tokAuthor) from by decide)]
    rw [if_neg (show ¬ (tokLpQuoted = tokLpLink) from by decide)]
    rw [if_neg (show ¬ (tokLpQuoted = tokLpName) from by decide)]
    rw [if_neg (show ¬ (tokLpQuoted = tokLpText) from by decide)]
    simp only [eq_self_iff_true, if_true]

theorem expandTemplate_renderChars (v : TokenValues)
    (hv : ∀ p ∈ tokenPairs v, noDollar p.2 = true)
    (lead : String) (items : List ((String × String) × String))
    (hlead : noDollar lead = true)
    (hfst : ∀ it ∈ items, it.1 ∈ tokenPairs v)
    (hlits : ∀ it ∈ items, noDollar it.2 = true) :
    expandTemplate (String.mk (lead.data ++ renderChars (fun p => p.1) items)) v
      = String.mk (lead.data ++ renderChars (fun p => p.2) items) := by
  have h1 : expandTemplate (String.mk (lead.data ++ renderChars (fun p => p.1) items)) v
      = applyPasses (tokenPairs v)
          (String.mk (lead.data ++ renderChars (fun p => p.1) items)) := rfl
  rw [h1]
  rw [applyPasses_renderChars (tokenPairs v)
    (fun pr hpr => ⟨tokenPairs_fst_mem v pr hpr, hv pr hpr⟩)
    (fun p => p.1) items
    (fun it hit => Or.inl (tokenPairs_fst_mem v it.1 (hfst it hit)))
    hlits lead hlead]
  have h2 : renderChars (fun p => substChain (tokenPairs v) p.1) items
      = renderChars (fun p => p.2) items :=
    renderChars_congr _ _ items
      (fun it hit => substChain_tokenPairs v hv it.1 (hfst it hit))
  rw [h2]

/-- C4: template expansion replaces every occurrence of each of the eight
token placeholders with its computed value: a template assembled from
`'$'`-free literal segments interleaved with any number of placeholder
occurrences — of any of the eight tokens, in any order, with repetitions —
expands to the same assembly with each occurrence replaced by that token's
value (for `'$'`-free computed values); an absent optional value behaves
exactly like the empty string; and the template `"Hi $MYPAGE_USER"` with
user `alice` expands to `"Hi alice"`. -/
theorem c4_token_replacement (v : TokenValues)
    (hv : ∀ p ∈ tokenPairs v, noDollar p.2 = true) :
    (∀ (lead : String) (items : List ((String × String) × String)),
      noDollar lead = true →
      (∀ it ∈ items, it.1 ∈ tokenPairs v) →
      (∀ it ∈ items, noDollar it.2 = true) →
      expandTemplate (String.mk (lead.data ++ renderChars (fun p => p.1) items)) v
        = String.mk (lead.data ++ renderChars (fun p => p.2) items)) ∧
    (∀ t : String, expandTemplate t (TokenValues.mk v.date v.isodate v.user v.author
        v.lp_link none none none)
      = expandTemplate t (TokenValues.mk v.date v.isodate v.user v.author
        v.lp_link (some "") (some "") (some ""))) ∧
    expandTemplate "Hi $MYPAGE_USER"
      (TokenValues.mk "2024-01-02" "2024-01-02" "alice" "Alice A" "" none none none)
      = "Hi alice" := by
  refine ⟨fun lead items hlead hfst hlits =>
    expandTemplate_renderChars v hv lead items hlead hfst hlits, fun t => rfl, ?_⟩
  have heq : ("Hi $MYPAGE_USER" : String)
      = String.mk ("Hi ".data ++ renderChars (fun p => p.1) [((tokUser, "alice"), "")]) := by
    decide
  rw [heq]
  rw [expandTemplate_renderChars
    (TokenValues.mk "2024-01-02" "2024-01-02" "alice" "Alice A" "" none none none)
    (by decide) "Hi " [((tokUser, "alice"), "")] (by decide) (by decide) (by decide)]
  decide

/-- Witness for C4: a template with two different placeholders, one of them
occurring twice, between literal segments. -/
theorem c4_token_replacement_witness :
    expandTemplate (String.mk ("Hello ".data ++ renderChars (fun p => p.1)
        [((tokUser, "u"), " and "), ((tokDate, "d"), " and "), ((tokUser, "u"), "!")]))
      (TokenValues.mk "d" "i" "u" "au" "l" none none none)
      = String.mk ("Hello ".data ++ renderChars (fun p => p.2)
        [((tokUser, "u"), " and "), ((tokDate, "d"), " and "), ((tokUser, "u"), "!")]) ∧
    String.mk ("Hello ".data ++ renderChars (fun p => p.1)
        [((tokUser, "u"), " and "), ((tokDate, "d"), " and "), ((tokUser, "u"), "!")])
      = "Hello $MYPAGE_USER and $MYPAGE_DATE and $MYPAGE_USER!" ∧
    String.mk ("Hello ".data ++ renderChars (fun p => p.2)
        [((tokUser, "u"), " and "), ((tokDate, "d"), " and "), ((tokUser, "u"), "!")])
      = "Hello u and d and u!" :=
  ⟨(c4_token_replacement (TokenValues.mk "d" "i" "u" "au" "l" none none none)
      (by decide)).1 "Hello "
      [((tokUser, "u"), " and "), ((tokDate, "d"), " and "), ((tokUser, "u"), "!")]
      (by decide) (by decide) (by decide),
    by decide, by decide⟩
